import Mathlib

/-!
Shallow embedding of the nekatz-tv virtual broadcast scheduler
(`apps/backend/src/playlist-manager.ts`, reproduced inside
`src/apps/backend/src/video-scanner.ts`) and of the streaming dispatcher
(`GET /api/stream` handler, `streamWithFFmpeg`, `streamOriginalFile`).

Times are absolute Unix-epoch milliseconds, modelled as `Int`.
Durations are whole seconds (`Math.floor` of the probed duration), modelled
as `Nat`.  The JS `Map<string, number>` of per-show episode cursors is
modelled as a function `String → Option Nat` (`none` = key absent).

Loops (`while (currentTime < endTime)`) are modelled with explicit fuel;
running out of fuel truncates the loop, so theorems about loop completion
carry an explicit "enough fuel" hypothesis.  A JS `TypeError` (reading
`.episodes` of `undefined` when `currentShowIndex` is out of bounds) is
modelled as the `none` result of an `Option`-returning function.
-/

namespace NekatzTV

/-- `Episode` record from `types.ts`; `duration` is in whole seconds. -/
structure Episode where
  path : String
  filename : String
  showName : String
  season : Nat
  episode : Nat
  part : String
  duration : Nat
deriving DecidableEq

/-- `Show` record from `types.ts`: a name and an ordered episode list. -/
structure Show where
  name : String
  episodes : List Episode
deriving DecidableEq

/-- `PlaylistItem` record from `types.ts`: absolute epoch-ms interval. -/
structure PlaylistItem where
  episode : Episode
  startTime : Int
  endTime : Int
deriving DecidableEq

/-- The `currentEpisode` component of `SavedState` in `playlist-manager.ts`. -/
structure SavedEpisode where
  showName : String
  season : Nat
  episode : Nat
  part : String
  startTime : Int
deriving DecidableEq

/-- The JS `Map<string, number>` of per-show episode cursors. -/
def StrMap : Type := String → Option Nat

/-- `Map.set`: point update. -/
def mapSet (m : StrMap) (k : String) (v : Nat) : StrMap :=
  fun name => if name = k then some v else m name

/-- A fresh (or cleared) cursor map. -/
def emptyMap : StrMap := fun _ => none

@[simp] theorem mapSet_same (m : StrMap) (k : String) (v : Nat) :
    mapSet m k v k = some v := by
  simp [mapSet]

@[simp] theorem mapSet_other (m : StrMap) (k : String) (v : Nat) (k' : String)
    (h : k' ≠ k) : mapSet m k v k' = m k' := by
  simp [mapSet, h]

/-- The mutable fields of `PlaylistManager` that the scheduler operates on. -/
structure PMState where
  shows : List Show
  showIndices : StrMap
  currentShowIndex : Nat
  playlist : List PlaylistItem

/-- `INITIAL_LOOKAHEAD_HOURS` / `EXTEND_LOOKAHEAD_HOURS` = 2 h, in ms. -/
def LOOKAHEAD_MS : Int := 2 * 60 * 60 * 1000

/-- `EXTEND_THRESHOLD_MINUTES` = 30 min, in ms. -/
def EXTEND_THRESHOLD_MS : Int := 30 * 60 * 1000

/-- `HISTORY_KEEP_MINUTES` = 30 min, in ms. -/
def HISTORY_KEEP_MS : Int := 30 * 60 * 1000

/-- `PlaylistManager.getNextEpisode`.  Returns `none` for the JS `TypeError`
raised when `currentShowIndex` is out of bounds of a nonempty show list
(`this.shows[this.currentShowIndex]` is `undefined` and `.episodes` throws);
otherwise `some (ep?, st')` where `ep?` is the returned episode (`none` for
JS `null`/`undefined`) and `st'` the mutated manager state. -/
def getNextEpisode (st : PMState) : Option (Option Episode × PMState) :=
  if st.shows.length = 0 then
    some (none, st)
  else
    match st.shows[st.currentShowIndex]? with
    | none => none
    | some sh =>
      let episodeIndex := (st.showIndices sh.name).getD 0
      let indices1 :=
        if sh.episodes.length ≤ episodeIndex then
          mapSet st.showIndices sh.name 0
        else
          st.showIndices
      let idx := (indices1 sh.name).getD 0
      let ep? := sh.episodes[idx]?
      let indices2 := mapSet indices1 sh.name (idx + 1)
      some (ep?,
        { st with
            showIndices := indices2
            currentShowIndex := (st.currentShowIndex + 1) % st.shows.length })

/-- The `while (currentTime < endTime)` item-generation loop shared by
`generateInitialPlaylist` and `extendPlaylist`, with explicit fuel.
Returns the appended items and the state after the rotation advanced. -/
def buildItems : Nat → PMState → Int → Int → Option (List PlaylistItem × PMState)
  | 0, st, _, _ => some ([], st)
  | fuel + 1, st, currentTime, endTime =>
    if currentTime < endTime then
      match getNextEpisode st with
      | none => none
      | some (none, st1) => some ([], st1)
      | some (some ep, st1) =>
        let item : PlaylistItem :=
          ⟨ep, currentTime, currentTime + (ep.duration : Int) * 1000⟩
        match buildItems fuel st1 item.endTime endTime with
        | none => none
        | some (items, st2) => some (item :: items, st2)
    else
      some ([], st)

/-- `shows.filter(show => show.episodes.length > 0)`, used by the
constructor, `reloadShows` and `rescanForNewEpisodes`. -/
def filterShows (shows : List Show) : List Show :=
  shows.filter fun sh => 0 < sh.episodes.length

/-- `PlaylistManager.initializeIndices`: give every show without a cursor
entry the cursor 0. -/
def initIndices (shows : List Show) (m : StrMap) : StrMap :=
  shows.foldl (fun acc sh => if (acc sh.name).isSome then acc else mapSet acc sh.name 0) m

/-- The episode predicate of the `findIndex` call in `restoreFromEpisode`. -/
def matchesSaved (saved : SavedEpisode) (ep : Episode) : Bool :=
  ep.season == saved.season && ep.episode == saved.episode
    && ep.part == saved.part && ep.showName == saved.showName

/-- The search loop of `restoreFromEpisode`: first show (with its index)
whose episode list contains a match, together with the episode index. -/
def findSaved : List Show → SavedEpisode → Option (Nat × Show × Nat)
  | [], _ => none
  | sh :: rest, saved =>
    match sh.episodes.findIdx? (matchesSaved saved) with
    | some epIdx => some (0, sh, epIdx)
    | none => (findSaved rest saved).map fun r => (r.1 + 1, r.2.1, r.2.2)

/-- `PlaylistManager.restoreFromEpisode` (state part; logging dropped). -/
def restoreFromEpisode (saved : SavedEpisode) (st : PMState) : PMState :=
  match findSaved st.shows saved with
  | some (showIdx, sh, epIdx) =>
    let m1 := mapSet st.showIndices sh.name epIdx
    let m2 := st.shows.foldl
      (fun acc other =>
        if other.name ≠ sh.name ∧ (acc other.name).isNone then
          mapSet acc other.name 0
        else
          acc) m1
    { st with currentShowIndex := showIdx, showIndices := m2 }
  | none =>
    { st with showIndices := initIndices st.shows st.showIndices }

/-- The constructor state just before `generateInitialPlaylist` runs:
filter out empty shows, then either restore from the saved episode or
initialize all cursors to 0.  `restored = none` models both "no state file"
and a state file with `currentEpisode: null`. -/
def constructState (shows0 : List Show) (restored : Option SavedEpisode) : PMState :=
  let st0 : PMState := ⟨filterShows shows0, emptyMap, 0, []⟩
  match restored with
  | some saved => restoreFromEpisode saved st0
  | none => { st0 with showIndices := initIndices st0.shows st0.showIndices }

/-- The channel epoch (`this.playlistStartTime`): the restored episode's
recorded start time, else `Date.now()` at construction. -/
def playlistStartTime (restored : Option SavedEpisode) (now : Int) : Int :=
  match restored with
  | some saved => saved.startTime
  | none => now

/-- The `PlaylistManager` constructor up to and including
`generateInitialPlaylist` (persistence timers are outside the state model). -/
def constructPM (fuel : Nat) (shows0 : List Show) (restored : Option SavedEpisode)
    (now : Int) : Option PMState :=
  let st1 := constructState shows0 restored
  let pstart := playlistStartTime restored now
  match buildItems fuel st1 pstart (pstart + LOOKAHEAD_MS) with
  | none => none
  | some (items, st2) => some { st2 with playlist := items }

/-- The linear scan `this.playlist.find(item => item.startTime <= now &&
item.endTime > now)`. -/
def findCurrent (playlist : List PlaylistItem) (now : Int) : Option PlaylistItem :=
  playlist.find? fun item => decide (item.startTime ≤ now) && decide (now < item.endTime)

/-- `lastItem ? lastItem.endTime : dflt` — the anchor the extension starts
from (`dflt` = `Date.now()` on an empty playlist). -/
def lastEnd (playlist : List PlaylistItem) (dflt : Int) : Int :=
  match playlist.getLast? with
  | some lastItem => lastItem.endTime
  | none => dflt

/-- `PlaylistManager.extendPlaylist`: append items from the last item's end
(or from `now` on an empty playlist) for a 2-hour lookahead, then drop items
that ended more than 30 minutes ago. -/
def extendPlaylist (fuel : Nat) (now : Int) (st : PMState) : Option PMState :=
  let base := lastEnd st.playlist now
  match buildItems fuel st base (base + LOOKAHEAD_MS) with
  | none => none
  | some (items, st1) =>
    let cutoff := now - HISTORY_KEEP_MS
    some { st1 with
             playlist := (st.playlist ++ items).filter fun item => decide (cutoff < item.endTime) }

/-- `PlaylistManager.getCurrentItem`: scan, on miss extend once and rescan;
on hit extend anyway when the window's end is within 30 minutes of `now`.
`none` propagates the modelled `TypeError` of `getNextEpisode`. -/
def getCurrentItem (fuel : Nat) (now : Int) (st : PMState) :
    Option (Option PlaylistItem × PMState) :=
  match findCurrent st.playlist now with
  | none =>
    match extendPlaylist fuel now st with
    | none => none
    | some st1 => some (findCurrent st1.playlist now, st1)
  | some currentItem =>
    match st.playlist.getLast? with
    | some lastItem =>
      if lastItem.endTime - now < EXTEND_THRESHOLD_MS then
        match extendPlaylist fuel now st with
        | none => none
        | some st1 => some (some currentItem, st1)
      else
        some (some currentItem, st)
    | none => some (some currentItem, st)

/-- `PlaylistManager.getPosition`: elapsed seconds inside the current item,
0 when there is none. -/
def getPosition (fuel : Nat) (now : Int) (st : PMState) : Option (Int × PMState) :=
  match getCurrentItem fuel now st with
  | none => none
  | some (none, st1) => some (0, st1)
  | some (some item, st1) => some ((now - item.startTime) / 1000, st1)

/-- `PlaylistManager.reloadShows`: replace the show list, clear the cursor
map and the show rotation index, re-initialize all cursors to 0. -/
def reloadShows (newShows : List Show) (st : PMState) : PMState :=
  let shows := filterShows newShows
  { st with
      shows := shows
      showIndices := initIndices shows emptyMap
      currentShowIndex := 0 }

/-- The state part of `PlaylistManager.rescanForNewEpisodes` (the catalog
callback and cache cleanup are external): replace the show list and give
cursors only to shows that do not have one yet. -/
def rescanShows (newShows : List Show) (st : PMState) : PMState :=
  let shows := filterShows newShows
  { st with
      shows := shows
      showIndices := initIndices shows st.showIndices }

/-! ## Stream dispatcher (`GET /api/stream`, `streamWithFFmpeg`,
`streamOriginalFile`) -/

/-- `compatibleCodecs` from `checkAudioCodec`. -/
def compatibleCodecs : List String := ["aac", "mp3", "opus", "vorbis"]

/-- `checkAudioCodec` (probe result part): input is the probed audio
codec name (`none` = no audio stream; the JS `codec_name || ''` default is
the caller's concern and is modelled by passing `some ""`).  Returns
`(needsTranscoding, codec)`. -/
def checkAudioCodec (audio : Option String) : Bool × String :=
  match audio with
  | none => (false, "none")
  | some c => (!(compatibleCodecs.contains c), c)

/-- The FFmpeg invocation built by `streamWithFFmpeg`: `-c:v copy` always,
`-c:a aac` only when transcoding is needed, `seekInput` only for a positive
start position, and the `Accept-Ranges` header it sets. -/
structure FFmpegPlan where
  videoCodec : String
  audioCodec : String
  seekInput : Option Nat
  acceptRanges : String
deriving DecidableEq

/-- The two delivery strategies of the `/api/stream` handler. -/
inductive DispatchResult where
  | ffmpegMode (plan : FFmpegPlan)
  | passthroughMode
deriving DecidableEq

/-- `streamWithFFmpeg` (header/option construction). -/
def streamWithFFmpeg (startPosition : Nat) (needsT : Bool) : FFmpegPlan :=
  { videoCodec := "copy"
    audioCodec := if needsT then "aac" else "copy"
    seekInput := if 0 < startPosition then some startPosition else none
    acceptRanges := "none" }

/-- The dispatch decision of the `GET /api/stream` handler:
`startPosition > 0 || needsTranscoding` selects FFmpeg mode, otherwise the
original file is served.  `startQuery = none` models an absent `start`
query parameter (parsed to 0). -/
def streamDispatch (startQuery : Option Nat) (audio : Option String) : DispatchResult :=
  let startPosition := startQuery.getD 0
  let needsT := (checkAudioCodec audio).1
  if 0 < startPosition || needsT then
    DispatchResult.ffmpegMode (streamWithFFmpeg startPosition needsT)
  else
    DispatchResult.passthroughMode

/-- A parsed `Range: bytes=start-end` header; `endByte = none` for an
open-ended `bytes=N-` range. -/
structure RangeHeader where
  first : Int
  endByte : Option Int
deriving DecidableEq

/-- The response `streamOriginalFile` produces, reduced to status code and
the headers the spec talks about. -/
structure FileResponse where
  status : Nat
  acceptRanges : Option String
  contentRange : Option (Int × Int × Int)
  contentLength : Option Int
deriving DecidableEq

/-- `INITIAL_CHUNK` = 10 MB, the bound on open-ended ranges. -/
def INITIAL_CHUNK : Int := 10 * 1024 * 1024

/-- `streamOriginalFile`: direct file serving with byte-range support.
An open-ended range is bounded to `INITIAL_CHUNK` bytes; out-of-bounds
ranges get 416. -/
def streamOriginalFile (fileSize : Int) (range : Option RangeHeader) : FileResponse :=
  match range with
  | none =>
    { status := 200
      acceptRanges := some "bytes"
      contentRange := none
      contentLength := some fileSize }
  | some r =>
    let start := r.first
    let last :=
      match r.endByte with
      | some e => e
      | none => min (start + INITIAL_CHUNK - 1) (fileSize - 1)
    if fileSize ≤ start ∨ fileSize ≤ last ∨ last < start then
      { status := 416, acceptRanges := none, contentRange := none, contentLength := none }
    else
      { status := 206
        acceptRanges := some "bytes"
        contentRange := some (start, last, fileSize)
        contentLength := some (last - start + 1) }

/-! ## Invariant predicates -/

/-- Items chain contiguously starting at time `t`, and each item's end is
its start plus its episode's duration in ms. -/
def ChainedFrom (t : Int) : List PlaylistItem → Prop
  | [] => True
  | item :: rest =>
    item.startTime = t
      ∧ item.endTime = item.startTime + (item.episode.duration : Int) * 1000
      ∧ ChainedFrom item.endTime rest

/-- Adjacent items meet exactly: `item[i].endTime = item[i+1].startTime`. -/
def Contiguous : List PlaylistItem → Prop
  | [] => True
  | [_] => True
  | a :: b :: rest => a.endTime = b.startTime ∧ Contiguous (b :: rest)

/-- The duration equation of a single item. -/
def ItemWF (item : PlaylistItem) : Prop :=
  item.endTime = item.startTime + (item.episode.duration : Int) * 1000

/-- The playlist invariant claimed by the spec: contiguity plus the
per-item duration equation. -/
def PlaylistInv (playlist : List PlaylistItem) : Prop :=
  Contiguous playlist ∧ ∀ item ∈ playlist, ItemWF item

/-- Well-formedness of the rotation state: `currentShowIndex` in bounds
unless the show list is empty, and no stored show without episodes. -/
def WFState (st : PMState) : Prop :=
  (st.shows = [] ∨ st.currentShowIndex < st.shows.length)
    ∧ ∀ sh ∈ st.shows, sh.episodes ≠ []

/-! ## Lemmas about `getNextEpisode` -/

/-- The cursor used for the episode access inside `getNextEpisode`: the
stored cursor, reset to 0 once it has reached the end of the episode list. -/
def nextIdx (st : PMState) (sh : Show) : Nat :=
  let c := (st.showIndices sh.name).getD 0
  if sh.episodes.length ≤ c then 0 else c

theorem getNextEpisode_of_empty (st : PMState) (h : st.shows = []) :
    getNextEpisode st = some (none, st) := by
  simp [getNextEpisode, h]

theorem nextIdx_lt (st : PMState) (sh : Show) (h : sh.episodes ≠ []) :
    nextIdx st sh < sh.episodes.length := by
  have hpos : 0 < sh.episodes.length := List.length_pos.mpr h
  simp only [nextIdx]
  split <;> omega

/-- Unfolding equation for `getNextEpisode` when the show access succeeds. -/
theorem getNextEpisode_eq (st : PMState) (sh : Show)
    (hsh : st.shows[st.currentShowIndex]? = some sh) :
    getNextEpisode st =
      some (sh.episodes[nextIdx st sh]?,
        { st with
            showIndices :=
              mapSet
                (if sh.episodes.length ≤ (st.showIndices sh.name).getD 0 then
                  mapSet st.showIndices sh.name 0
                else
                  st.showIndices) sh.name (nextIdx st sh + 1)
            currentShowIndex := (st.currentShowIndex + 1) % st.shows.length }) := by
  have hlen : st.currentShowIndex < st.shows.length :=
    (List.getElem?_eq_some.mp hsh).1
  have hlen0 : ¬ st.shows.length = 0 := by omega
  by_cases hc : sh.episodes.length ≤ (st.showIndices sh.name).getD 0
  · have hidx : nextIdx st sh = 0 := by simp [nextIdx, hc]
    simp only [getNextEpisode, hlen0, if_false, hsh, if_pos hc, hidx,
      mapSet_same, Option.getD_some]
  · have hidx : nextIdx st sh = (st.showIndices sh.name).getD 0 := by
      simp [nextIdx, hc]
    simp only [getNextEpisode, hlen0, if_false, hsh, if_neg hc, hidx]

/-- Full characterization of a successful `getNextEpisode` step on a show
with at least one episode. -/
theorem getNextEpisode_spec (st : PMState) (sh : Show)
    (hsh : st.shows[st.currentShowIndex]? = some sh)
    (heps : sh.episodes ≠ []) :
    ∃ ep st',
      getNextEpisode st = some (some ep, st')
        ∧ sh.episodes[nextIdx st sh]? = some ep
        ∧ st'.shows = st.shows
        ∧ st'.playlist = st.playlist
        ∧ st'.currentShowIndex = (st.currentShowIndex + 1) % st.shows.length
        ∧ st'.showIndices sh.name = some (nextIdx st sh + 1)
        ∧ ∀ name, name ≠ sh.name → st'.showIndices name = st.showIndices name := by
  obtain ⟨ep, hep⟩ : ∃ ep, sh.episodes[nextIdx st sh]? = some ep :=
    ⟨_, List.getElem?_eq_getElem (nextIdx_lt st sh heps)⟩
  refine ⟨ep,
    { st with
        showIndices :=
          mapSet
            (if sh.episodes.length ≤ (st.showIndices sh.name).getD 0 then
              mapSet st.showIndices sh.name 0
            else
              st.showIndices) sh.name (nextIdx st sh + 1)
        currentShowIndex := (st.currentShowIndex + 1) % st.shows.length },
    ?_, hep, rfl, rfl, rfl, ?_, ?_⟩
  · rw [getNextEpisode_eq st sh hsh, hep]
  · simp [mapSet]
  · intro name hname
    split <;> simp [mapSet, hname]

theorem getNextEpisode_preserves (st : PMState) (ep? : Option Episode)
    (st' : PMState) (h : getNextEpisode st = some (ep?, st')) :
    st'.shows = st.shows ∧ st'.playlist = st.playlist := by
  unfold getNextEpisode at h
  split at h
  · cases h
    exact ⟨rfl, rfl⟩
  · split at h
    · cases h
    · cases h
      exact ⟨rfl, rfl⟩

theorem getNextEpisode_wf (st : PMState) (ep? : Option Episode) (st' : PMState)
    (hwf : WFState st) (h : getNextEpisode st = some (ep?, st')) :
    WFState st' := by
  unfold getNextEpisode at h
  split at h
  · cases h
    exact hwf
  · rename_i hlen0
    split at h
    · cases h
    · cases h
      refine ⟨Or.inr ?_, hwf.2⟩
      exact Nat.mod_lt _ (by omega)

theorem getNextEpisode_mem (st : PMState) (ep : Episode) (st' : PMState)
    (h : getNextEpisode st = some (some ep, st')) :
    ∃ sh ∈ st.shows, ep ∈ sh.episodes := by
  unfold getNextEpisode at h
  split at h
  · cases h
  · split at h
    · cases h
    · rename_i sh hsh
      rw [Option.some.injEq, Prod.mk.injEq] at h
      obtain ⟨hep, -⟩ := h
      refine ⟨sh, ?_, ?_⟩
      · obtain ⟨hlt, hget⟩ := List.getElem?_eq_some.mp hsh
        exact hget ▸ List.getElem_mem hlt
      · obtain ⟨hlt, hget⟩ := List.getElem?_eq_some.mp hep
        exact hget ▸ List.getElem_mem hlt

/-! ## Lemmas about `buildItems` -/

theorem lastEnd_ne_nil (l : List PlaylistItem) (hl : l ≠ []) (t t' : Int) :
    lastEnd l t = lastEnd l t' := by
  cases hlast : l.getLast? with
  | none => exact absurd (List.getLast?_eq_none_iff.mp hlast) hl
  | some a => simp [lastEnd, hlast]

theorem lastEnd_cons (a : PlaylistItem) (l : List PlaylistItem) (t : Int) :
    lastEnd (a :: l) t = lastEnd l a.endTime := by
  cases l with
  | nil => simp [lastEnd]
  | cons b l' =>
    rw [show lastEnd (a :: b :: l') t = lastEnd (b :: l') t by
      simp [lastEnd, List.getLast?_cons_cons]]
    exact lastEnd_ne_nil _ (by simp) _ _

/-- Everything `buildItems` guarantees about a successful run, regardless of
whether the loop finished or ran out of fuel: the emitted items chain
contiguously from the anchor, shows and playlist are untouched, every
emitted episode comes from the stored shows, and every item starts inside
`[t, e)`. -/
theorem buildItems_spec (fuel : Nat) (st : PMState) (t e : Int)
    (items : List PlaylistItem) (st' : PMState)
    (h : buildItems fuel st t e = some (items, st')) :
    ChainedFrom t items
      ∧ st'.shows = st.shows
      ∧ st'.playlist = st.playlist
      ∧ (∀ item ∈ items, ∃ sh ∈ st.shows, item.episode ∈ sh.episodes)
      ∧ (∀ item ∈ items, t ≤ item.startTime ∧ item.startTime < e) := by
  induction fuel generalizing st t items st' with
  | zero =>
    rw [buildItems] at h
    cases h
    exact ⟨trivial, rfl, rfl, by simp, by simp⟩
  | succ fuel ih =>
    rw [buildItems] at h
    split at h
    · rename_i hlt
      cases heq : getNextEpisode st with
      | none => rw [heq] at h; cases h
      | some r =>
        obtain ⟨ep?, st1⟩ := r
        cases ep? with
        | none =>
          simp only [heq] at h
          obtain ⟨hsh, hpl⟩ := getNextEpisode_preserves st none st1 heq
          cases h
          exact ⟨trivial, hsh, hpl, by simp, by simp⟩
        | some ep =>
          simp only [heq] at h
          cases hb : buildItems fuel st1 (t + (ep.duration : Int) * 1000) e with
          | none =>
            simp only [hb] at h
            cases h
          | some r2 =>
            obtain ⟨items', st2⟩ := r2
            simp only [hb] at h
            obtain ⟨hsh1, hpl1⟩ := getNextEpisode_preserves st (some ep) st1 heq
            obtain ⟨hchain, hsh2, hpl2, hmem, hbnd⟩ := ih st1 _ items' st2 hb
            cases h
            refine ⟨⟨rfl, rfl, hchain⟩, hsh2.trans hsh1, hpl2.trans hpl1, ?_, ?_⟩
            · intro item hitem
              rcases List.mem_cons.mp hitem with rfl | hitem
              · exact getNextEpisode_mem st ep st1 heq
              · obtain ⟨sh, hshmem, hepmem⟩ := hmem item hitem
                exact ⟨sh, hsh1 ▸ hshmem, hepmem⟩
            · intro item hitem
              rcases List.mem_cons.mp hitem with rfl | hitem
              · exact ⟨le_refl _, hlt⟩
              · obtain ⟨h1, h2⟩ := hbnd item hitem
                have : (0 : Int) ≤ (ep.duration : Int) * 1000 := by positivity
                exact ⟨by omega, h2⟩
    · cases h
      exact ⟨trivial, rfl, rfl, by simp, by simp⟩

/-- `buildItems` cannot fail on a well-formed state, and preserves
well-formedness. -/
theorem buildItems_total (fuel : Nat) (st : PMState) (t e : Int)
    (hwf : WFState st) :
    ∃ items st', buildItems fuel st t e = some (items, st') ∧ WFState st' := by
  induction fuel generalizing st t with
  | zero => exact ⟨[], st, rfl, hwf⟩
  | succ fuel ih =>
    by_cases hlt : t < e
    · rcases eq_or_ne st.shows [] with hemp | hne
      · exact ⟨[], st, by rw [buildItems, if_pos hlt, getNextEpisode_of_empty st hemp], hwf⟩
      · have hcsi : st.currentShowIndex < st.shows.length := by
          rcases hwf.1 with h | h
          · exact absurd h hne
          · exact h
        have hsh : st.shows[st.currentShowIndex]? = some st.shows[st.currentShowIndex] :=
          List.getElem?_eq_getElem hcsi
        have heps : st.shows[st.currentShowIndex].episodes ≠ [] :=
          hwf.2 _ (List.getElem_mem hcsi)
        obtain ⟨ep, st1, heq, -⟩ := getNextEpisode_spec st _ hsh heps
        have hwf1 : WFState st1 := getNextEpisode_wf st _ st1 hwf heq
        obtain ⟨items, st2, hb, hwf2⟩ := ih st1 (t + (ep.duration : Int) * 1000) hwf1
        refine ⟨⟨ep, t, t + (ep.duration : Int) * 1000⟩ :: items, st2, ?_, hwf2⟩
        rw [buildItems, if_pos hlt]
        simp only [heq, hb]
    · exact ⟨[], st, by rw [buildItems, if_neg hlt], hwf⟩

/-- With a nonempty catalog, positive durations and enough fuel, the
generation loop reaches the horizon: the last emitted item ends at or
after `e`. -/
theorem buildItems_reaches (fuel : Nat) (st : PMState) (t e : Int)
    (hwf : WFState st) (hne : st.shows ≠ [])
    (hdur : ∀ sh ∈ st.shows, ∀ ep ∈ sh.episodes, 0 < ep.duration)
    (hfuel : (e - t).toNat ≤ fuel)
    (items : List PlaylistItem) (st' : PMState)
    (h : buildItems fuel st t e = some (items, st')) :
    e ≤ lastEnd items t := by
  induction fuel generalizing st t items st' with
  | zero =>
    rw [buildItems] at h
    cases h
    have : e ≤ t := by omega
    simpa [lastEnd] using this
  | succ fuel ih =>
    rw [buildItems] at h
    split at h
    · rename_i hlt
      have hcsi : st.currentShowIndex < st.shows.length := by
        rcases hwf.1 with h' | h'
        · exact absurd h' hne
        · exact h'
      have hsh : st.shows[st.currentShowIndex]? = some st.shows[st.currentShowIndex] :=
        List.getElem?_eq_getElem hcsi
      have heps : st.shows[st.currentShowIndex].episodes ≠ [] :=
        hwf.2 _ (List.getElem_mem hcsi)
      obtain ⟨ep, st1, heq, hepidx, hshows1, -⟩ := getNextEpisode_spec st _ hsh heps
      simp only [heq] at h
      cases hb : buildItems fuel st1 (t + (ep.duration : Int) * 1000) e with
      | none =>
        simp only [hb] at h
        cases h
      | some r2 =>
        obtain ⟨items', st2⟩ := r2
        simp only [hb] at h
        have hwf1 : WFState st1 := getNextEpisode_wf st _ st1 hwf heq
        have hne1 : st1.shows ≠ [] := hshows1 ▸ hne
        have hdur1 : ∀ sh ∈ st1.shows, ∀ e ∈ sh.episodes, 0 < e.duration :=
          hshows1 ▸ hdur
        have hd : 0 < ep.duration := by
          have hepmem : ep ∈ st.shows[st.currentShowIndex].episodes := by
            obtain ⟨hlt', hget⟩ := List.getElem?_eq_some.mp hepidx
            exact hget ▸ List.getElem_mem hlt'
          exact hdur _ (List.getElem_mem hcsi) ep hepmem
        have hfuel1 : (e - (t + (ep.duration : Int) * 1000)).toNat ≤ fuel := by
          have h1000 : (1000 : Int) ≤ (ep.duration : Int) * 1000 := by
            have : (1 : Int) ≤ (ep.duration : Int) := by exact_mod_cast hd
            nlinarith
          omega
        have hrec := ih st1 (t + (ep.duration : Int) * 1000) hwf1 hne1 hdur1 hfuel1 items' st2 hb
        cases h
        rw [lastEnd_cons]
        exact hrec
    · cases h
      rename_i hlt
      have : e ≤ t := by omega
      simpa [lastEnd] using this

/-! ## Contiguity lemmas -/

theorem contiguous_of_chainedFrom : ∀ (t : Int) (items : List PlaylistItem),
    ChainedFrom t items → Contiguous items
  | _, [], _ => trivial
  | _, [_], _ => trivial
  | _, a :: b :: rest, h =>
    ⟨h.2.2.1.symm, contiguous_of_chainedFrom a.endTime (b :: rest) h.2.2⟩

theorem itemWF_of_chainedFrom : ∀ (t : Int) (items : List PlaylistItem),
    ChainedFrom t items → ∀ it ∈ items, ItemWF it
  | _, [], _ => by simp
  | _, a :: rest, h => by
    intro it hit
    rcases List.mem_cons.mp hit with rfl | hit
    · exact h.2.1
    · exact itemWF_of_chainedFrom a.endTime rest h.2.2 it hit

theorem contiguous_tail (a : PlaylistItem) (rest : List PlaylistItem)
    (h : Contiguous (a :: rest)) : Contiguous rest := by
  cases rest with
  | nil => trivial
  | cons b rest' => exact h.2

theorem lastEnd_cons_cons (a b : PlaylistItem) (l : List PlaylistItem) (t : Int) :
    lastEnd (a :: b :: l) t = lastEnd (b :: l) t := by
  simp [lastEnd, List.getLast?_cons_cons]

theorem endTime_le_lastEnd : ∀ (l : List PlaylistItem) (t : Int), Contiguous l →
    (∀ it ∈ l, ItemWF it) → ∀ it ∈ l, it.endTime ≤ lastEnd l t
  | [], _, _, _ => by simp
  | [a], _, _, _ => by
    intro it hit
    rcases List.mem_cons.mp hit with rfl | hit
    · simp [lastEnd]
    · simp at hit
  | a :: b :: l', t, h, hwf => by
    intro it hit
    rw [lastEnd_cons_cons]
    rcases List.mem_cons.mp hit with rfl | hit'
    · have hb := endTime_le_lastEnd (b :: l') t h.2
        (fun x hx => hwf x (List.mem_cons_of_mem _ hx)) b (by simp)
      have hwfb := hwf b (by simp)
      rw [ItemWF] at hwfb
      have hd : (0 : Int) ≤ (b.episode.duration : Int) * 1000 := by positivity
      have h1 : it.endTime = b.startTime := h.1
      omega
    · exact endTime_le_lastEnd (b :: l') t h.2
        (fun x hx => hwf x (List.mem_cons_of_mem _ hx)) it hit'

theorem head_endTime_le : ∀ (a : PlaylistItem) (rest : List PlaylistItem),
    Contiguous (a :: rest) → (∀ it ∈ a :: rest, ItemWF it) →
    ∀ it ∈ rest, a.endTime ≤ it.endTime
  | _, [], _, _ => by simp
  | a, b :: rest', h, hwf => by
    intro it hit
    have hab : a.endTime = b.startTime := h.1
    have hwfb := hwf b (by simp)
    rw [ItemWF] at hwfb
    have hd : (0 : Int) ≤ (b.episode.duration : Int) * 1000 := by positivity
    rcases List.mem_cons.mp hit with rfl | hit'
    · omega
    · have := head_endTime_le b rest' h.2
        (fun x hx => hwf x (List.mem_cons_of_mem _ hx)) it hit'
      omega

theorem contiguous_filter (cutoff : Int) : ∀ (l : List PlaylistItem), Contiguous l →
    (∀ it ∈ l, ItemWF it) →
    Contiguous (l.filter fun it => decide (cutoff < it.endTime))
  | [], _, _ => by simp [Contiguous]
  | a :: rest, h, hwf => by
    by_cases hk : cutoff < a.endTime
    · have hall : ∀ it ∈ a :: rest, (fun it => decide (cutoff < it.endTime)) it = true := by
        intro it hit
        rcases List.mem_cons.mp hit with rfl | hit'
        · simpa using hk
        · have hord : a.endTime ≤ it.endTime := head_endTime_le a rest h hwf it hit'
          simp only [decide_eq_true_eq]
          omega
      rw [List.filter_eq_self.mpr hall]
      exact h
    · rw [List.filter_cons_of_neg (by simpa using hk)]
      exact contiguous_filter cutoff rest (contiguous_tail a rest h)
        (fun x hx => hwf x (List.mem_cons_of_mem _ hx))

theorem contiguous_append : ∀ (pl : List PlaylistItem) (t : Int)
    (items : List PlaylistItem), Contiguous pl →
    ChainedFrom (lastEnd pl t) items → Contiguous (pl ++ items)
  | [], t, items, _, hc => by
    simpa using contiguous_of_chainedFrom _ items hc
  | [a], t, items, _, hc => by
    cases items with
    | nil => trivial
    | cons b rest =>
      have hc' : ChainedFrom a.endTime (b :: rest) := by
        simpa [lastEnd] using hc
      exact ⟨hc'.1.symm, contiguous_of_chainedFrom _ _ hc'⟩
  | a :: b :: pl', t, items, h, hc => by
    have h1 : Contiguous ((b :: pl') ++ items) :=
      contiguous_append (b :: pl') t items h.2
        (by rwa [lastEnd_cons_cons] at hc)
    exact ⟨h.1, h1⟩

/-! ## Lemmas about `findCurrent` -/

theorem findCurrent_prop (l : List PlaylistItem) (now : Int) (it : PlaylistItem)
    (h : findCurrent l now = some it) : it.startTime ≤ now ∧ now < it.endTime := by
  have := List.find?_some h
  simpa using this

theorem findCurrent_isSome (l : List PlaylistItem) (now : Int) (it : PlaylistItem)
    (hmem : it ∈ l) (h1 : it.startTime ≤ now) (h2 : now < it.endTime) :
    ∃ it', findCurrent l now = some it' ∧ it'.startTime ≤ now ∧ now < it'.endTime := by
  have hsome : (findCurrent l now).isSome := by
    rw [findCurrent, List.find?_isSome]
    exact ⟨it, hmem, by simp [h1, h2]⟩
  obtain ⟨it', hit'⟩ := Option.isSome_iff_exists.mp hsome
  exact ⟨it', hit', findCurrent_prop l now it' hit'⟩

/-! ## Lemmas about `initIndices`, `findSaved`, `filterShows` -/

theorem initIndices_isSome : ∀ (shows : List Show) (m : StrMap) (name : String),
    (m name).isSome → initIndices shows m name = m name
  | [], _, _, _ => rfl
  | sh :: rest, m, name, h => by
    rw [initIndices, List.foldl_cons]
    by_cases hsh : (m sh.name).isSome
    · rw [if_pos hsh]
      exact initIndices_isSome rest m name h
    · rw [if_neg hsh]
      have hne : name ≠ sh.name := by
        intro heq
        rw [heq] at h
        exact hsh h
      have hms : mapSet m sh.name 0 name = m name := mapSet_other m sh.name 0 name hne
      have hres := initIndices_isSome rest (mapSet m sh.name 0) name (by rw [hms]; exact h)
      rw [hms] at hres
      exact hres

theorem initIndices_mem : ∀ (shows : List Show) (m : StrMap) (sh : Show),
    sh ∈ shows → initIndices shows m sh.name = some ((m sh.name).getD 0)
  | [], _, _, h => by simp at h
  | sh' :: rest, m, sh, h => by
    rw [initIndices, List.foldl_cons]
    rcases List.mem_cons.mp h with rfl | hmem
    · by_cases hsh : (m sh.name).isSome
      · rw [if_pos hsh]
        obtain ⟨v, hv⟩ := Option.isSome_iff_exists.mp hsh
        rw [show rest.foldl _ m = initIndices rest m from rfl,
          initIndices_isSome rest m sh.name hsh, hv]
        simp
      · rw [if_neg hsh]
        have hv : mapSet m sh.name 0 sh.name = some 0 := mapSet_same m sh.name 0
        rw [show rest.foldl _ (mapSet m sh.name 0) = initIndices rest (mapSet m sh.name 0) from rfl,
          initIndices_isSome rest (mapSet m sh.name 0) sh.name (by simp [hv]), hv]
        rw [Option.not_isSome_iff_eq_none] at hsh
        simp [hsh]
    · by_cases hsh : (m sh'.name).isSome
      · rw [if_pos hsh]
        exact initIndices_mem rest m sh hmem
      · rw [if_neg hsh]
        have heq : ((mapSet m sh'.name 0 sh.name).getD 0) = ((m sh.name).getD 0) := by
          by_cases hname : sh.name = sh'.name
          · rw [Option.not_isSome_iff_eq_none] at hsh
            simp [mapSet, hname, hsh]
          · simp [mapSet, hname]
        rw [show rest.foldl _ (mapSet m sh'.name 0) = initIndices rest (mapSet m sh'.name 0) from rfl,
          initIndices_mem rest (mapSet m sh'.name 0) sh hmem, heq]

theorem initIndices_not_mem : ∀ (shows : List Show) (m : StrMap) (name : String),
    (∀ sh ∈ shows, sh.name ≠ name) → initIndices shows m name = m name
  | [], _, _, _ => rfl
  | sh' :: rest, m, name, h => by
    rw [initIndices, List.foldl_cons]
    have hrec : ∀ m', initIndices rest m' name = m' name := fun m' =>
      initIndices_not_mem rest m' name (fun sh hsh => h sh (List.mem_cons_of_mem _ hsh))
    by_cases hsh : (m sh'.name).isSome
    · rw [if_pos hsh]
      exact hrec m
    · rw [if_neg hsh]
      rw [show rest.foldl _ (mapSet m sh'.name 0) = initIndices rest (mapSet m sh'.name 0) from rfl,
        hrec (mapSet m sh'.name 0),
        mapSet_other m sh'.name 0 name (fun heq => h sh' (by simp) heq.symm)]

theorem findIdx?_prop {α : Type} : ∀ (l : List α) (p : α → Bool) (i : Nat),
    l.findIdx? p = some i → ∃ a, l[i]? = some a ∧ p a = true
  | [], p, i, h => by simp at h
  | a :: l', p, i, h => by
    rw [List.findIdx?_cons] at h
    split at h
    · rename_i hp
      cases h
      exact ⟨a, by simp, hp⟩
    · rw [List.findIdx?_succ, Option.map_eq_some'] at h
      obtain ⟨j, hj, rfl⟩ := h
      obtain ⟨b, hb, hpb⟩ := findIdx?_prop l' p j hj
      exact ⟨b, by simpa using hb, hpb⟩

theorem findSaved_spec : ∀ (shows : List Show) (saved : SavedEpisode)
    (i : Nat) (sh : Show) (j : Nat),
    findSaved shows saved = some (i, sh, j) →
    shows[i]? = some sh ∧ ∃ ep, sh.episodes[j]? = some ep ∧ matchesSaved saved ep = true
  | [], _, _, _, _, h => by simp [findSaved] at h
  | sh' :: rest, saved, i, sh, j, h => by
    rw [findSaved] at h
    split at h
    · rename_i epIdx hidx
      cases h
      exact ⟨by simp, findIdx?_prop _ _ _ hidx⟩
    · simp only [Option.map_eq_some'] at h
      obtain ⟨⟨i', sh'', j'⟩, hrec, heq⟩ := h
      cases heq
      obtain ⟨h1, h2⟩ := findSaved_spec rest saved i' sh'' j' hrec
      exact ⟨by simpa using h1, h2⟩

theorem filterShows_ne_nil (shows0 : List Show) (sh : Show)
    (h : sh ∈ filterShows shows0) : sh.episodes ≠ [] := by
  have := (List.mem_filter.mp h).2
  simp only [decide_eq_true_eq] at this
  exact List.ne_nil_of_length_pos this

/-- The cursor set by `restoreFromEpisode` for the matched show survives the
initialization loop for the other shows. -/
theorem restore_foldl_preserve (shName : String) (v : Nat) :
    ∀ (l : List Show) (acc : StrMap), acc shName = some v →
      (l.foldl (fun acc other =>
        if other.name ≠ shName ∧ (acc other.name).isNone then
          mapSet acc other.name 0
        else
          acc) acc) shName = some v
  | [], _, h => h
  | other :: rest, acc, h => by
    rw [List.foldl_cons]
    split
    · rename_i hcond
      exact restore_foldl_preserve shName v rest _
        (by rw [mapSet_other acc other.name 0 shName (fun heq => hcond.1 heq.symm)]; exact h)
    · exact restore_foldl_preserve shName v rest acc h

/-- `buildItems` preserves rotation well-formedness. -/
theorem buildItems_wf : ∀ (fuel : Nat) (st : PMState) (t e : Int)
    (items : List PlaylistItem) (st' : PMState),
    WFState st → buildItems fuel st t e = some (items, st') → WFState st'
  | 0, st, _, _, items, st', hwf, h => by
    rw [buildItems] at h
    cases h
    exact hwf
  | fuel + 1, st, t, e, items, st', hwf, h => by
    rw [buildItems] at h
    split at h
    · cases heq : getNextEpisode st with
      | none => rw [heq] at h; cases h
      | some r =>
        obtain ⟨ep?, st1⟩ := r
        have hwf1 : WFState st1 := getNextEpisode_wf st ep? st1 hwf heq
        cases ep? with
        | none =>
          simp only [heq] at h
          cases h
          exact hwf1
        | some ep =>
          simp only [heq] at h
          cases hb : buildItems fuel st1 (t + (ep.duration : Int) * 1000) e with
          | none => simp only [hb] at h; cases h
          | some r2 =>
            obtain ⟨items', st2⟩ := r2
            simp only [hb] at h
            have := buildItems_wf fuel st1 _ e items' st2 hwf1 hb
            cases h
            exact this
    · cases h
      exact hwf

/-- A contiguous chain whose last item ends at or after `e` covers every
instant of `[t, e)`. -/
theorem chainedFrom_covers : ∀ (t : Int) (items : List PlaylistItem) (x : Int),
    ChainedFrom t items → t ≤ x → x < lastEnd items t →
    ∃ it ∈ items, it.startTime ≤ x ∧ x < it.endTime
  | t, [], x, _, h1, h2 => by
    simp only [lastEnd, List.getLast?_nil] at h2
    omega
  | t, a :: rest, x, h, h1, h2 => by
    by_cases hx : x < a.endTime
    · exact ⟨a, by simp, by rw [h.1]; exact h1, hx⟩
    · have h2' : x < lastEnd rest a.endTime := by rwa [lastEnd_cons] at h2
      obtain ⟨it, hmem, hcov⟩ :=
        chainedFrom_covers a.endTime rest x h.2.2 (by omega) h2'
      exact ⟨it, List.mem_cons_of_mem _ hmem, hcov⟩

/-- Strict increase of the start times of adjacent items. -/
def StrictlyOrdered : List PlaylistItem → Prop
  | [] => True
  | [_] => True
  | a :: b :: rest => a.startTime < b.startTime ∧ StrictlyOrdered (b :: rest)

theorem strictlyOrdered_of_inv : ∀ (pl : List PlaylistItem), Contiguous pl →
    (∀ it ∈ pl, ItemWF it) → (∀ it ∈ pl, 0 < it.episode.duration) →
    StrictlyOrdered pl
  | [], _, _, _ => trivial
  | [_], _, _, _ => trivial
  | a :: b :: rest, h, hwf, hd => by
    refine ⟨?_, strictlyOrdered_of_inv (b :: rest) h.2
      (fun x hx => hwf x (List.mem_cons_of_mem _ hx))
      (fun x hx => hd x (List.mem_cons_of_mem _ hx))⟩
    have hwa := hwf a (by simp)
    rw [ItemWF] at hwa
    have hda := hd a (by simp)
    have : (1000 : Int) ≤ (a.episode.duration : Int) * 1000 := by
      have : (1 : Int) ≤ (a.episode.duration : Int) := by exact_mod_cast hda
      nlinarith
    have hab : a.endTime = b.startTime := h.1
    omega

/-! ## Concrete catalogs used in witnesses and counterexamples -/

/-- Show A, episode 1 (30 s) of the spec's scenario. -/
def epA1 : Episode := ⟨"/shows/A/A - S01E01.mp4", "A - S01E01.mp4", "A", 1, 1, "", 30⟩

/-- Show A, episode 2 (45 s) of the spec's scenario. -/
def epA2 : Episode := ⟨"/shows/A/A - S01E02.mp4", "A - S01E02.mp4", "A", 1, 2, "", 45⟩

/-- Show B, episode 1 (60 s) of the spec's scenario. -/
def epB1 : Episode := ⟨"/shows/B/B - S01E01.mp4", "B - S01E01.mp4", "B", 1, 1, "", 60⟩

def showA : Show := ⟨"A", [epA1, epA2]⟩

def showB : Show := ⟨"B", [epB1]⟩

/-- The spec's scenario catalog: A (30 s/45 s) and B (60 s). -/
def scenarioShows : List Show := [showA, showB]

def epX1 : Episode := ⟨"/shows/X/X - S01E01.mp4", "X - S01E01.mp4", "X", 1, 1, "", 100⟩

def epX2 : Episode := ⟨"/shows/X/X - S01E02.mp4", "X - S01E02.mp4", "X", 1, 2, "", 120⟩

def showX : Show := ⟨"X", [epX1, epX2]⟩

def epC1 : Episode := ⟨"/shows/C/C - S01E01.mp4", "C - S01E01.mp4", "C", 1, 1, "", 30⟩

def showC : Show := ⟨"C", [epC1]⟩

/-! ## C6 — dispatch decision -/

/-- C6: a stream request with `start` absent or 0 and a compatible audio
codec is served in passthrough mode; a request with `start > 0` or an
incompatible codec is served through FFmpeg with the video stream copied,
audio re-encoded to AAC exactly when the codec is incompatible, the input
seeked to the requested offset, and `Accept-Ranges: none`; passthrough
responses (200/206) advertise `Accept-Ranges: bytes`. -/
theorem C6_dispatch_decision (startQuery : Option Nat) (audio : Option String) :
    (startQuery.getD 0 = 0 → (checkAudioCodec audio).1 = false →
        streamDispatch startQuery audio = DispatchResult.passthroughMode)
      ∧ (0 < startQuery.getD 0 ∨ (checkAudioCodec audio).1 = true →
          streamDispatch startQuery audio =
            DispatchResult.ffmpegMode
              { videoCodec := "copy"
                audioCodec := if (checkAudioCodec audio).1 then "aac" else "copy"
                seekInput :=
                  if 0 < startQuery.getD 0 then some (startQuery.getD 0) else none
                acceptRanges := "none" })
      ∧ (∀ (fileSize : Int) (range : Option RangeHeader),
          (streamOriginalFile fileSize range).status = 416
            ∨ (streamOriginalFile fileSize range).acceptRanges = some "bytes") := by
  refine ⟨?_, ?_, ?_⟩
  · intro h1 h2
    simp [streamDispatch, h1, h2]
  · intro h
    rcases h with h | h
    · simp [streamDispatch, streamWithFFmpeg, h]
    · simp only [streamDispatch, streamWithFFmpeg, h, Bool.or_true, if_true]
  · intro fileSize range
    cases range with
    | none => right; rfl
    | some r =>
      simp only [streamOriginalFile]
      split
      · left; rfl
      · right; rfl

/-- Witness for C6: `start=45` with compatible audio (`aac`) gives copy
mode with a 45 s input seek and ranges disabled; `start` absent with `aac`
gives passthrough. -/
theorem C6_witness :
    streamDispatch (some 45) (some "aac")
        = DispatchResult.ffmpegMode ⟨"copy", "copy", some 45, "none"⟩
      ∧ streamDispatch none (some "aac") = DispatchResult.passthroughMode := by
  constructor
  · have h := (C6_dispatch_decision (some 45) (some "aac")).2.1 (Or.inl (by decide))
    simpa using h
  · exact (C6_dispatch_decision none (some "aac")).1 rfl (by decide)

/-! ## C9 — bounded open-ended range -/

/-- C9: in passthrough mode an open-ended range `bytes=N-` with a valid
start byte is answered with 206 and a chunk of
`min 10MB (fileSize - start)` bytes, not the whole remaining file. -/
theorem C9_open_range_bounded (fileSize start : Int)
    (h0 : 0 ≤ start) (h1 : start < fileSize) :
    streamOriginalFile fileSize (some ⟨start, none⟩) =
      { status := 206
        acceptRanges := some "bytes"
        contentRange := some (start, min (start + INITIAL_CHUNK - 1) (fileSize - 1), fileSize)
        contentLength := some (min INITIAL_CHUNK (fileSize - start)) } := by
  have hchunk : (0 : Int) < INITIAL_CHUNK := by norm_num [INITIAL_CHUNK]
  simp only [streamOriginalFile]
  rw [if_neg (by omega)]
  simp only [FileResponse.mk.injEq, Option.some.injEq, Prod.mk.injEq, true_and]
  omega

/-- Witness for C9: a 50 MB file with `bytes=100-` gets exactly the
10 MB initial chunk. -/
theorem C9_witness :
    streamOriginalFile 50000000 (some ⟨100, none⟩) =
      ⟨206, some "bytes", some (100, 10485859, 50000000), some 10485760⟩ := by
  have h := C9_open_range_bounded 50000000 100 (by norm_num) (by norm_num)
  simpa [INITIAL_CHUNK] using h

/-! ## C7 — catalog reload vs. rotation state -/

/-- A rotation state as it stands after two `getNextEpisode` calls on the
scenario catalog: cursors A→1, B→1, `currentShowIndex` back at... here 1. -/
def cst7 : PMState := ⟨[showA, showB], mapSet (mapSet emptyMap "A" 1) "B" 1, 1, []⟩

/-- Counterexample to C7: `reloadShows` with a catalog still containing
show A does NOT keep A's episode cursor — it resets it to 0. -/
theorem C7_counterexample :
    cst7.showIndices "A" = some 1
      ∧ (reloadShows [showA, showB] cst7).showIndices "A" = some 0
      ∧ (reloadShows [showA, showB] cst7).showIndices "A" ≠ cst7.showIndices "A" := by
  refine ⟨rfl, rfl, by decide⟩

/-- C7 (amended): `reloadShows` replaces the show list (dropping empty
shows) but RESETS all rotation state — every cursor back to 0 and
`currentShowIndex` to 0 — leaving the generated playlist untouched.  The
periodic rescan path (`rescanForNewEpisodes`), by contrast, keeps every
existing cursor, starts newly-appeared shows at cursor 0, and touches
neither `currentShowIndex` nor the playlist. -/
theorem C7_reload_semantics (st : PMState) (newShows : List Show) :
    ((reloadShows newShows st).shows = filterShows newShows
        ∧ (reloadShows newShows st).currentShowIndex = 0
        ∧ (reloadShows newShows st).playlist = st.playlist
        ∧ (∀ sh ∈ filterShows newShows,
            (reloadShows newShows st).showIndices sh.name = some 0)
        ∧ (∀ name, (∀ sh ∈ filterShows newShows, sh.name ≠ name) →
            (reloadShows newShows st).showIndices name = none))
      ∧ ((rescanShows newShows st).shows = filterShows newShows
        ∧ (rescanShows newShows st).currentShowIndex = st.currentShowIndex
        ∧ (rescanShows newShows st).playlist = st.playlist
        ∧ (∀ name v, st.showIndices name = some v →
            (rescanShows newShows st).showIndices name = some v)
        ∧ (∀ sh ∈ filterShows newShows, st.showIndices sh.name = none →
            (rescanShows newShows st).showIndices sh.name = some 0)) := by
  refine ⟨⟨rfl, rfl, rfl, ?_, ?_⟩, rfl, rfl, rfl, ?_, ?_⟩
  · intro sh hmem
    have := initIndices_mem (filterShows newShows) emptyMap sh hmem
    simpa [emptyMap] using this
  · intro name hname
    have := initIndices_not_mem (filterShows newShows) emptyMap name hname
    simpa [emptyMap] using this
  · intro name v hv
    have := initIndices_isSome (filterShows newShows) st.showIndices name (by simp [hv])
    simp only [rescanShows]
    rw [this, hv]
  · intro sh hmem hnone
    have := initIndices_mem (filterShows newShows) st.showIndices sh hmem
    simp only [rescanShows]
    rw [this, hnone]
    rfl

/-- Witness for C7 (amended): on the concrete state `cst7`, reload resets
A's cursor to 0 while rescan keeps it at 1; both leave the playlist alone. -/
theorem C7_witness :
    (reloadShows scenarioShows cst7).playlist = cst7.playlist
      ∧ (reloadShows scenarioShows cst7).showIndices "A" = some 0
      ∧ (rescanShows scenarioShows cst7).showIndices "A" = some 1 := by
  have h := C7_reload_semantics cst7 scenarioShows
  refine ⟨h.1.2.2.1, ?_, ?_⟩
  · exact h.1.2.2.2.1 showA (by decide)
  · exact h.2.2.2.2.1 "A" 1 rfl

/-! ## C8 — restore-miss fallback -/

/-- C8: when the persisted episode is not found in the catalog, the
constructed rotation state is exactly the fresh-start state:
`currentShowIndex` 0 and cursor 0 for every stored show; the restore path
is a total function (no exception). -/
theorem C8_restore_miss (shows0 : List Show) (saved : SavedEpisode)
    (hmiss : findSaved (filterShows shows0) saved = none) :
    constructState shows0 (some saved) = constructState shows0 none
      ∧ (constructState shows0 (some saved)).currentShowIndex = 0
      ∧ ∀ sh ∈ (constructState shows0 (some saved)).shows,
          (constructState shows0 (some saved)).showIndices sh.name = some 0 := by
  have heq : constructState shows0 (some saved) = constructState shows0 none := by
    simp only [constructState, restoreFromEpisode, hmiss]
  refine ⟨heq, ?_, ?_⟩
  · rw [heq]
    rfl
  · rw [heq]
    intro sh hmem
    have := initIndices_mem (filterShows shows0) emptyMap sh hmem
    simpa [emptyMap] using this

def savedZ : SavedEpisode := ⟨"Z", 9, 9, "", 0⟩

/-- Witness for C8: a persisted episode `Z S9E9` absent from the scenario
catalog falls back to the fresh state with all cursors 0. -/
theorem C8_witness :
    constructState scenarioShows (some savedZ) = constructState scenarioShows none
      ∧ (constructState scenarioShows (some savedZ)).currentShowIndex = 0 := by
  have h := C8_restore_miss scenarioShows savedZ (by decide)
  exact ⟨h.1, h.2.1⟩

/-! ## C10 — getNextEpisode safety -/

/-- The rotation state after one full cycle on the scenario catalog would
have `currentShowIndex` 1 mid-cycle; a rescan can then shrink the catalog
to a single show. -/
def cst10 : PMState :=
  rescanShows [showC] ⟨[showA, showB], initIndices [showA, showB] emptyMap, 1, []⟩

/-- Counterexample to C10: after a rescan shrinks the show list below
`currentShowIndex`, `getNextEpisode` hits an out-of-bounds show access
(modelled `none` = the JS `TypeError` on `undefined.episodes`) even though
the stored show list is nonempty and every stored show has episodes. -/
theorem C10_counterexample :
    cst10.shows ≠ []
      ∧ (∀ sh ∈ cst10.shows, sh.episodes ≠ [])
      ∧ cst10.currentShowIndex = 1
      ∧ getNextEpisode cst10 = none := by
  exact ⟨by decide, by decide, rfl, rfl⟩

/-- C10 (amended): when `currentShowIndex` is in bounds — as established by
the constructor and `reloadShows`, but not always preserved by the rescan
path — and every stored show has at least one episode, `getNextEpisode`
returns a non-null episode and all its array accesses are in bounds; on an
empty show list it returns null without touching the state. -/
theorem C10_next_episode_safety (st : PMState) :
    (st.shows = [] → getNextEpisode st = some (none, st))
      ∧ (st.currentShowIndex < st.shows.length →
          (∀ sh ∈ st.shows, sh.episodes ≠ []) →
          ∃ ep st' sh, getNextEpisode st = some (some ep, st')
            ∧ st.shows[st.currentShowIndex]? = some sh
            ∧ nextIdx st sh < sh.episodes.length
            ∧ sh.episodes[nextIdx st sh]? = some ep) := by
  refine ⟨getNextEpisode_of_empty st, ?_⟩
  intro hcsi heps
  have hsh : st.shows[st.currentShowIndex]? = some st.shows[st.currentShowIndex] :=
    List.getElem?_eq_getElem hcsi
  have hne := heps _ (List.getElem_mem hcsi)
  obtain ⟨ep, st', h1, h2, -⟩ := getNextEpisode_spec st _ hsh hne
  exact ⟨ep, st', _, h1, hsh, nextIdx_lt st _ hne, h2⟩

/-- Witness for C10 (amended): on the fresh scenario state the next episode
exists. -/
theorem C10_witness :
    ∃ ep st', getNextEpisode ⟨scenarioShows, emptyMap, 0, []⟩ = some (some ep, st') := by
  have h := (C10_next_episode_safety ⟨scenarioShows, emptyMap, 0, []⟩).2
    (by decide) (by decide)
  obtain ⟨ep, st', sh, h1, -⟩ := h
  exact ⟨ep, st', h1⟩

/-! ## C2 — playlist contiguity invariant -/

/-- Decomposition of a successful `extendPlaylist` run. -/
theorem extendPlaylist_items (fuel : Nat) (now : Int) (st st' : PMState)
    (h : extendPlaylist fuel now st = some st') :
    ∃ items st1,
      buildItems fuel st (lastEnd st.playlist now)
          (lastEnd st.playlist now + LOOKAHEAD_MS) = some (items, st1)
        ∧ st' = { st1 with
            playlist := (st.playlist ++ items).filter
              fun item => decide (now - HISTORY_KEEP_MS < item.endTime) } := by
  simp only [extendPlaylist] at h
  cases hb : buildItems fuel st (lastEnd st.playlist now)
      (lastEnd st.playlist now + LOOKAHEAD_MS) with
  | none => rw [hb] at h; cases h
  | some r =>
    obtain ⟨items, st1⟩ := r
    rw [hb] at h
    cases h
    exact ⟨items, st1, rfl, rfl⟩

/-- `extendPlaylist` preserves the contiguity invariant. -/
theorem extendPlaylist_inv (fuel : Nat) (now : Int) (st st' : PMState)
    (hinv : PlaylistInv st.playlist) (h : extendPlaylist fuel now st = some st') :
    PlaylistInv st'.playlist := by
  obtain ⟨items, st1, hb, rfl⟩ := extendPlaylist_items fuel now st st' h
  obtain ⟨hchain, -, -, -, -⟩ := buildItems_spec fuel st _ _ items st1 hb
  have hcont : Contiguous (st.playlist ++ items) :=
    contiguous_append st.playlist now items hinv.1 hchain
  have hwfall : ∀ it ∈ st.playlist ++ items, ItemWF it := by
    intro it hit
    rcases List.mem_append.mp hit with hold | hnew
    · exact hinv.2 it hold
    · exact itemWF_of_chainedFrom _ items hchain it hnew
  refine ⟨contiguous_filter _ _ hcont hwfall, ?_⟩
  intro it hit
  exact hwfall it (List.mem_filter.mp hit).1

/-- The constructor establishes the contiguity invariant. -/
theorem constructPM_inv (fuel : Nat) (shows0 : List Show)
    (restored : Option SavedEpisode) (now : Int) (st : PMState)
    (h : constructPM fuel shows0 restored now = some st) :
    PlaylistInv st.playlist := by
  simp only [constructPM] at h
  cases hb : buildItems fuel (constructState shows0 restored)
      (playlistStartTime restored now)
      (playlistStartTime restored now + LOOKAHEAD_MS) with
  | none => rw [hb] at h; cases h
  | some r =>
    obtain ⟨items, st1⟩ := r
    rw [hb] at h
    cases h
    obtain ⟨hchain, -, -, -, -⟩ := buildItems_spec fuel _ _ _ items st1 hb
    exact ⟨contiguous_of_chainedFrom _ items hchain,
      itemWF_of_chainedFrom _ items hchain⟩

/-- `getCurrentItem` (which may extend the playlist) preserves the
contiguity invariant. -/
theorem getCurrentItem_inv (fuel : Nat) (now : Int) (st : PMState)
    (it? : Option PlaylistItem) (st' : PMState)
    (hinv : PlaylistInv st.playlist)
    (h : getCurrentItem fuel now st = some (it?, st')) :
    PlaylistInv st'.playlist := by
  rw [getCurrentItem] at h
  split at h
  · cases hext : extendPlaylist fuel now st with
    | none => rw [hext] at h; cases h
    | some st1 =>
      rw [hext] at h
      cases h
      exact extendPlaylist_inv fuel now st _ hinv hext
  · split at h
    · split at h
      · cases hext : extendPlaylist fuel now st with
        | none => rw [hext] at h; cases h
        | some st1 =>
          rw [hext] at h
          cases h
          exact extendPlaylist_inv fuel now st _ hinv hext
      · cases h
        exact hinv
    · cases h
      exact hinv

/-- C2: the playlist is a contiguous, non-overlapping sequence with
`endTime = startTime + duration*1000` per item, after construction and
after every mutation (extension, trim, and the extensions triggered inside
`getCurrentItem`); with positive episode durations the start times are
strictly increasing. -/
theorem C2_playlist_contiguity :
    (∀ (fuel : Nat) (shows0 : List Show) (restored : Option SavedEpisode)
        (now : Int) (st : PMState),
        constructPM fuel shows0 restored now = some st → PlaylistInv st.playlist)
      ∧ (∀ (fuel : Nat) (now : Int) (st st' : PMState),
          PlaylistInv st.playlist → extendPlaylist fuel now st = some st' →
          PlaylistInv st'.playlist)
      ∧ (∀ (fuel : Nat) (now : Int) (st : PMState) (it? : Option PlaylistItem)
          (st' : PMState),
          PlaylistInv st.playlist → getCurrentItem fuel now st = some (it?, st') →
          PlaylistInv st'.playlist)
      ∧ (∀ pl : List PlaylistItem, PlaylistInv pl →
          (∀ it ∈ pl, 0 < it.episode.duration) → StrictlyOrdered pl) :=
  ⟨constructPM_inv, extendPlaylist_inv, getCurrentItem_inv,
    fun pl hinv hd => strictlyOrdered_of_inv pl hinv.1 hinv.2 hd⟩

/-- Fresh rotation state on the single-show catalog B, empty playlist. -/
def pmB0 : PMState := ⟨[showB], initIndices [showB] emptyMap, 0, []⟩

/-- Witness for C2: extending from the fresh B-state yields a playlist
satisfying the invariant. -/
theorem C2_witness :
    ∃ st', extendPlaylist 5 0 pmB0 = some st' ∧ PlaylistInv st'.playlist := by
  have hsome : (extendPlaylist 5 0 pmB0).isSome = true := rfl
  obtain ⟨st', hst'⟩ := Option.isSome_iff_exists.mp hsome
  exact ⟨st', hst',
    C2_playlist_contiguity.2.1 5 0 pmB0 st' ⟨by trivial, by simp [pmB0]⟩ hst'⟩

/-! ## C5 — window bound -/

set_option maxRecDepth 100000

/-- Counterexample to C5: catalog = show B only (every episode 60 s);
construct at epoch 0 (window ends at 7 200 000 ms), query at
`now = 5 460 000` (29 min before the window end, so the threshold
extension fires).  After the extension the last item ends at
14 400 000 ms, i.e. `endTime - now = 8 940 000 ms` — more than
2 h + one episode duration (7 260 000 ms). -/
theorem C5_counterexample :
    (∀ sh ∈ [showB], ∀ ep ∈ sh.episodes, ep.duration = 60)
      ∧ ((constructPM 130 [showB] none 0).bind fun st =>
          (getCurrentItem 130 5460000 st).map fun p => lastEnd p.2.playlist 0)
        = some 14400000
      ∧ ¬((14400000 : Int) - 5460000 ≤ LOOKAHEAD_MS + 60 * 1000) := by
  refine ⟨by decide, by decide, by decide⟩

/-- C5 (amended): after any extension, every retained item ends after
`now - 30min` (trim bound, as claimed), and every item — the last one in
particular — ends no later than the pre-extension window end (or `now` on
an empty playlist) plus 2 h plus one maximal episode duration.  When the
extension was triggered by the 30-minute threshold
(`lastEnd - now < 30min`), this bounds `endTime - now` by
2 h 30 min + one episode duration — not by the claimed 2 h + one episode
duration. -/
theorem C5_window_bound (fuel : Nat) (now : Int) (st st' : PMState) (D : Nat)
    (hinv : PlaylistInv st.playlist)
    (hD : ∀ sh ∈ st.shows, ∀ ep ∈ sh.episodes, ep.duration ≤ D)
    (h : extendPlaylist fuel now st = some st') :
    (∀ it ∈ st'.playlist, now - HISTORY_KEEP_MS < it.endTime)
      ∧ (∀ it ∈ st'.playlist,
          it.endTime ≤ lastEnd st.playlist now + LOOKAHEAD_MS + (D : Int) * 1000)
      ∧ (lastEnd st.playlist now - now < EXTEND_THRESHOLD_MS →
          ∀ it ∈ st'.playlist,
            it.endTime - now < EXTEND_THRESHOLD_MS + LOOKAHEAD_MS + (D : Int) * 1000) := by
  obtain ⟨items, st1, hb, rfl⟩ := extendPlaylist_items fuel now st st' h
  obtain ⟨hchain, -, -, hmem, hbnd⟩ := buildItems_spec fuel st _ _ items st1 hb
  have hbound : ∀ it ∈ st.playlist ++ items,
      it.endTime ≤ lastEnd st.playlist now + LOOKAHEAD_MS + (D : Int) * 1000 := by
    intro it hit
    have hD1000 : (0 : Int) ≤ (D : Int) * 1000 := by positivity
    have hL : (0 : Int) < LOOKAHEAD_MS := by norm_num [LOOKAHEAD_MS]
    rcases List.mem_append.mp hit with hold | hnew
    · have hle := endTime_le_lastEnd st.playlist now hinv.1 hinv.2 it hold
      omega
    · have hwfit := itemWF_of_chainedFrom _ items hchain it hnew
      rw [ItemWF] at hwfit
      have hstart := (hbnd it hnew).2
      have hdle : it.episode.duration ≤ D := by
        obtain ⟨sh, hshm, hepm⟩ := hmem it hnew
        exact hD sh hshm _ hepm
      have hcast : (it.episode.duration : Int) * 1000 ≤ (D : Int) * 1000 := by
        have hc : (it.episode.duration : Int) ≤ (D : Int) := by exact_mod_cast hdle
        nlinarith
      omega
  refine ⟨?_, ?_, ?_⟩
  · intro it hit
    have := (List.mem_filter.mp hit).2
    simpa using this
  · intro it hit
    exact hbound it (List.mem_filter.mp hit).1
  · intro hth it hit
    have := hbound it (List.mem_filter.mp hit).1
    omega

/-- Witness for C5 (amended): extension from the fresh B-state stays inside
`now + 2h + 60s`. -/
theorem C5_witness :
    ∃ st', extendPlaylist 5 0 pmB0 = some st'
      ∧ ∀ it ∈ st'.playlist,
          it.endTime ≤ lastEnd pmB0.playlist 0 + LOOKAHEAD_MS + ((60 : Nat) : Int) * 1000 := by
  have hsome : (extendPlaylist 5 0 pmB0).isSome = true := rfl
  obtain ⟨st', hst'⟩ := Option.isSome_iff_exists.mp hsome
  have h := C5_window_bound 5 0 pmB0 st' 60 ⟨by trivial, by simp [pmB0]⟩ (by decide) hst'
  exact ⟨st', hst', h.2.1⟩

/-! ## C1 — round-robin fairness and the spec scenario -/

/-- `n` consecutive `getNextEpisode` calls, collecting the returned
episodes. -/
def rrRun : Nat → PMState → Option (List (Option Episode) × PMState)
  | 0, st => some ([], st)
  | n + 1, st =>
    match getNextEpisode st with
    | none => none
    | some (ep?, st1) =>
      match rrRun n st1 with
      | none => none
      | some (eps, st') => some (ep? :: eps, st')

/-- A run of `j` calls followed by one more call is a run of `j + 1`
calls. -/
theorem rrRun_snoc : ∀ (j : Nat) (st : PMState) (eps : List (Option Episode))
    (stj : PMState) (ep? : Option Episode) (stj' : PMState),
    rrRun j st = some (eps, stj) → getNextEpisode stj = some (ep?, stj') →
    rrRun (j + 1) st = some (eps ++ [ep?], stj')
  | 0, st, eps, stj, ep?, stj', hrun, hstep => by
    rw [rrRun] at hrun
    cases hrun
    rw [rrRun]
    simp only [hstep, rrRun, List.nil_append]
  | j + 1, st, eps, stj, ep?, stj', hrun, hstep => by
    rw [rrRun] at hrun
    cases h0 : getNextEpisode st with
    | none => rw [h0] at hrun; cases hrun
    | some r =>
      obtain ⟨ep0, st1⟩ := r
      simp only [h0] at hrun
      cases hr1 : rrRun j st1 with
      | none =>
        simp only [hr1] at hrun
        cases hrun
      | some r1 =>
        obtain ⟨eps1, stj1⟩ := r1
        simp only [hr1] at hrun
        cases hrun
        have hrec := rrRun_snoc j st1 eps1 stj ep? stj' hr1 hstep
        rw [rrRun]
        simp only [h0, hrec, List.cons_append]

/-- Counterexample to C1's scenario: the actual rotation on the scenario
catalog from epoch 0 is A1, B1, A2, **B1** — the 4th item is B-ep1 on
`[135000, 195000)`, not A-ep1 on `[135000, 165000)` as the spec's scenario
asserts (the spec's own round-robin rule forces show B into every second
slot). -/
theorem C1_counterexample :
    ((constructPM 200 scenarioShows none 0).map fun s =>
        (s.playlist.take 4).map fun it => (it.episode, it.startTime, it.endTime))
      ≠ some [(epA1, 0, 30000), (epB1, 30000, 90000),
          (epA2, 90000, 135000), (epA1, 135000, 165000)] := by
  decide

/-- C1 (amended): strict round-robin holds — starting from any
well-formed state, the `j`-th of `n` consecutive calls selects the show at
index `(currentShowIndex + j) % #shows` (so over `k = #shows` consecutive
calls each show is selected exactly once, in show-list order, as the
injectivity conjunct makes explicit), and, per the second conjunct, every
call emits exactly the episode at the selected show's cursor — the cursor
wrapping to 0 precisely when it has reached the end of the episode list
and advancing by one afterwards, all other shows' cursors untouched, which
is per-show original order with wrap-around — but the spec's concrete
scenario is wrong in its 4th item: the playlist built from epoch 0 on the
scenario catalog begins A1 [0,30s), B1 [30s,90s), A2 [90s,135s),
**B1 [135s,195s)**. -/
theorem rrRun_spec : ∀ (n : Nat) (st : PMState),
    (∀ sh ∈ st.shows, sh.episodes ≠ []) → st.currentShowIndex < st.shows.length →
    ∃ eps st', rrRun n st = some (eps, st')
      ∧ st'.shows = st.shows
      ∧ st'.currentShowIndex = (st.currentShowIndex + n) % st.shows.length
      ∧ eps.length = n
      ∧ ∀ j < n, ∃ sh ep,
          st.shows[(st.currentShowIndex + j) % st.shows.length]? = some sh
            ∧ eps[j]? = some (some ep) ∧ ep ∈ sh.episodes
  | 0, st, _, hcsi => by
    refine ⟨[], st, rfl, rfl, ?_, rfl, by omega⟩
    rw [Nat.add_zero, Nat.mod_eq_of_lt hcsi]
  | n + 1, st, heps, hcsi => by
    have hlen0 : 0 < st.shows.length := by omega
    have hsh : st.shows[st.currentShowIndex]? = some st.shows[st.currentShowIndex] :=
      List.getElem?_eq_getElem hcsi
    have hne := heps _ (List.getElem_mem hcsi)
    obtain ⟨ep, st1, heq, hepidx, hshows1, -, hcsi1, -, -⟩ :=
      getNextEpisode_spec st _ hsh hne
    have heps1 : ∀ sh ∈ st1.shows, sh.episodes ≠ [] := hshows1 ▸ heps
    have hcsi1lt : st1.currentShowIndex < st1.shows.length := by
      rw [hcsi1, hshows1]
      exact Nat.mod_lt _ hlen0
    obtain ⟨eps, st', hrun, hshows', hcsi', hlen, hsel⟩ :=
      rrRun_spec n st1 heps1 hcsi1lt
    refine ⟨some ep :: eps, st', ?_, hshows'.trans hshows1, ?_, by simp [hlen], ?_⟩
    · rw [rrRun]
      simp only [heq, hrun]
    · rw [hcsi', hcsi1, hshows1, Nat.mod_add_mod]
      congr 1
      omega
    · intro j hj
      cases j with
      | zero =>
        refine ⟨st.shows[st.currentShowIndex], ep, ?_, by simp, ?_⟩
        · rw [Nat.add_zero, Nat.mod_eq_of_lt hcsi]
          exact hsh
        · obtain ⟨hlt', hget⟩ := List.getElem?_eq_some.mp hepidx
          exact hget ▸ List.getElem_mem hlt'
      | succ j =>
        obtain ⟨sh, ep', h1, h2, h3⟩ := hsel j (by omega)
        refine ⟨sh, ep', ?_, by simpa using h2, h3⟩
        rw [hshows1, hcsi1, Nat.mod_add_mod] at h1
        rw [show st.currentShowIndex + (j + 1) = st.currentShowIndex + 1 + j by omega]
        exact h1

theorem C1_round_robin (st : PMState)
    (heps : ∀ sh ∈ st.shows, sh.episodes ≠ [])
    (hcsi : st.currentShowIndex < st.shows.length) :
    (∀ n, ∃ eps st', rrRun n st = some (eps, st')
        ∧ st'.shows = st.shows
        ∧ st'.currentShowIndex = (st.currentShowIndex + n) % st.shows.length
        ∧ eps.length = n
        ∧ ∀ j < n, ∃ sh ep,
            st.shows[(st.currentShowIndex + j) % st.shows.length]? = some sh
              ∧ eps[j]? = some (some ep) ∧ ep ∈ sh.episodes)
      ∧ (∀ j, ∃ eps stj sh ep stj',
          rrRun j st = some (eps, stj)
            ∧ st.shows[(st.currentShowIndex + j) % st.shows.length]? = some sh
            ∧ getNextEpisode stj = some (some ep, stj')
            ∧ rrRun (j + 1) st = some (eps ++ [some ep], stj')
            ∧ sh.episodes[nextIdx stj sh]? = some ep
            ∧ nextIdx stj sh
                = (if sh.episodes.length ≤ (stj.showIndices sh.name).getD 0 then 0
                  else (stj.showIndices sh.name).getD 0)
            ∧ stj'.showIndices sh.name = some (nextIdx stj sh + 1)
            ∧ (∀ name, name ≠ sh.name → stj'.showIndices name = stj.showIndices name))
      ∧ (∀ j1 j2, j1 < st.shows.length → j2 < st.shows.length →
          (st.currentShowIndex + j1) % st.shows.length
            = (st.currentShowIndex + j2) % st.shows.length → j1 = j2)
      ∧ (((constructPM 200 scenarioShows none 0).map fun s =>
            (s.playlist.take 4).map fun it => (it.episode, it.startTime, it.endTime))
          = some [(epA1, 0, 30000), (epB1, 30000, 90000),
              (epA2, 90000, 135000), (epB1, 135000, 195000)]) := by
  have hlen0 : 0 < st.shows.length := by omega
  refine ⟨fun n => rrRun_spec n st heps hcsi, ?_, ?_, by decide⟩
  · intro j
    obtain ⟨eps, stj, h1, h2, h3, -, -⟩ := rrRun_spec j st heps hcsi
    have hcsij : stj.currentShowIndex < stj.shows.length := by
      rw [h3, h2]
      exact Nat.mod_lt _ hlen0
    obtain ⟨sh, hsh⟩ : ∃ sh, stj.shows[stj.currentShowIndex]? = some sh :=
      ⟨_, List.getElem?_eq_getElem hcsij⟩
    have hsh' : st.shows[(st.currentShowIndex + j) % st.shows.length]? = some sh := by
      rw [← h3, ← h2]
      exact hsh
    have hepsne : sh.episodes ≠ [] := by
      apply heps
      rw [← h2]
      obtain ⟨hlt, hget⟩ := List.getElem?_eq_some.mp hsh
      exact hget ▸ List.getElem_mem hlt
    obtain ⟨ep, stj', hstep, hepidx, -, -, -, hcur, hoth⟩ :=
      getNextEpisode_spec stj sh hsh hepsne
    exact ⟨eps, stj, sh, ep, stj', h1, hsh', hstep,
      rrRun_snoc j st eps stj (some ep) stj' h1 hstep, hepidx, by simp [nextIdx],
      hcur, hoth⟩
  · intro j1 j2 h1 h2 heq
    have hmod : j1 % st.shows.length = j2 % st.shows.length :=
      Nat.ModEq.add_left_cancel' st.currentShowIndex heq
    rwa [Nat.mod_eq_of_lt h1, Nat.mod_eq_of_lt h2] at hmod

/-- Fresh rotation state on the scenario catalog. -/
def pmScen0 : PMState := ⟨scenarioShows, initIndices scenarioShows emptyMap, 0, []⟩

/-- Witness for C1 (amended): two calls on the fresh scenario state cycle
through both shows and return the rotation to show index 0. -/
theorem C1_witness :
    ∃ eps st', rrRun 2 pmScen0 = some (eps, st')
      ∧ st'.currentShowIndex = 0 ∧ eps.length = 2 := by
  have h := (C1_round_robin pmScen0 (by decide) (by decide)).1 2
  obtain ⟨eps, st', h1, -, h3, h4, -⟩ := h
  exact ⟨eps, st', h1, by simpa using h3, h4⟩

/-! ## C3 — time-anchored resumption -/

/-- C3: restoring from a persisted episode whose identity is found in the
catalog anchors the playlist at the persisted `startTime`; queried 90 s
later (while the episode is still running, `duration > 90`), the current
item is exactly that episode on `[T, T + duration·1000)` and the position
is 90 s.  The position is always `floor((now - startTime)/1000)`, derived
from absolute time. -/
theorem C3_time_anchored (shows0 : List Show) (saved : SavedEpisode)
    (i : Nat) (sh : Show) (j : Nat) (ep : Episode) (fuel1 fuel2 : Nat)
    (hfind : findSaved (filterShows shows0) saved = some (i, sh, j))
    (hep : sh.episodes[j]? = some ep)
    (hdur : 90 < ep.duration) :
    (∃ st st',
        constructPM (fuel1 + 1) shows0 (some saved) (saved.startTime + 90000) = some st
          ∧ getCurrentItem fuel2 (saved.startTime + 90000) st
              = some (some ⟨ep, saved.startTime,
                  saved.startTime + (ep.duration : Int) * 1000⟩, st')
          ∧ getPosition fuel2 (saved.startTime + 90000) st = some (90, st')
          ∧ matchesSaved saved ep = true)
      ∧ (∀ (fuel : Nat) (now : Int) (stt : PMState) (it : PlaylistItem)
          (st'' : PMState),
          getCurrentItem fuel now stt = some (some it, st'') →
          getPosition fuel now stt = some ((now - it.startTime) / 1000, st'')) := by
  have hposition : ∀ (fuel : Nat) (now : Int) (stt : PMState) (it : PlaylistItem)
      (st'' : PMState),
      getCurrentItem fuel now stt = some (some it, st'') →
      getPosition fuel now stt = some ((now - it.startTime) / 1000, st'') := by
    intro fuel now stt it st'' hgci
    rw [getPosition, hgci]
  refine ⟨?_, hposition⟩
  obtain ⟨hshow_i, ep0, hep0, hmatch0⟩ := findSaved_spec _ _ _ _ _ hfind
  have hj : j < sh.episodes.length := (List.getElem?_eq_some.mp hep).1
  have hmatch : matchesSaved saved ep = true := by
    have : ep0 = ep := by
      have := hep0.symm.trans hep
      exact Option.some.injEq _ _ ▸ this
    exact this ▸ hmatch0
  -- the constructed pre-playlist state
  have h1s : (constructState shows0 (some saved)).shows = filterShows shows0 := by
    simp only [constructState, restoreFromEpisode, hfind]
  have h1c : (constructState shows0 (some saved)).currentShowIndex = i := by
    simp only [constructState, restoreFromEpisode, hfind]
  have h1m : (constructState shows0 (some saved)).showIndices sh.name = some j := by
    simp only [constructState, restoreFromEpisode, hfind]
    exact restore_foldl_preserve sh.name j _ _ (mapSet_same emptyMap sh.name j)
  have hwf1 : WFState (constructState shows0 (some saved)) := by
    refine ⟨Or.inr ?_, ?_⟩
    · rw [h1s, h1c]
      exact (List.getElem?_eq_some.mp hshow_i).1
    · rw [h1s]
      intro sh' hsh'
      exact filterShows_ne_nil shows0 sh' hsh'
  have hsh1 : (constructState shows0 (some saved)).shows[
      (constructState shows0 (some saved)).currentShowIndex]? = some sh := by
    rw [h1s, h1c]
    exact hshow_i
  have hshne : sh.episodes ≠ [] := List.ne_nil_of_length_pos (by omega)
  have hnidx : nextIdx (constructState shows0 (some saved)) sh = j := by
    simp only [nextIdx, h1m, Option.getD_some]
    rw [if_neg (by omega)]
  obtain ⟨ep1, st2, hgne, hepidx1, hsh2, hpl2, hcsi2, -, -⟩ :=
    getNextEpisode_spec (constructState shows0 (some saved)) sh hsh1 hshne
  have hep1 : ep1 = ep := by
    rw [hnidx, hep] at hepidx1
    exact (Option.some.injEq _ _ ▸ hepidx1).symm
  subst hep1
  have hwf2 : WFState st2 := getNextEpisode_wf _ _ st2 hwf1 hgne
  obtain ⟨items', st3, hb2, hwf3⟩ := buildItems_total fuel1 st2
    (saved.startTime + (ep1.duration : Int) * 1000)
    (saved.startTime + LOOKAHEAD_MS) hwf2
  have hLpos : (0 : Int) < LOOKAHEAD_MS := by norm_num [LOOKAHEAD_MS]
  have hbuild : buildItems (fuel1 + 1) (constructState shows0 (some saved))
      saved.startTime (saved.startTime + LOOKAHEAD_MS)
      = some (⟨ep1, saved.startTime,
          saved.startTime + (ep1.duration : Int) * 1000⟩ :: items', st3) := by
    rw [buildItems, if_pos (by omega)]
    simp only [hgne, hb2]
  have hcpm : constructPM (fuel1 + 1) shows0 (some saved) (saved.startTime + 90000)
      = some { st3 with playlist := ⟨ep1, saved.startTime,
          saved.startTime + (ep1.duration : Int) * 1000⟩ :: items' } := by
    simp only [constructPM, playlistStartTime, hbuild]
  set stF : PMState := { st3 with playlist := ⟨ep1, saved.startTime,
      saved.startTime + (ep1.duration : Int) * 1000⟩ :: items' } with hstF
  have hd1000 : (91000 : Int) ≤ (ep1.duration : Int) * 1000 := by
    have : (91 : Int) ≤ (ep1.duration : Int) := by exact_mod_cast hdur
    nlinarith
  have hfc : findCurrent stF.playlist (saved.startTime + 90000)
      = some ⟨ep1, saved.startTime, saved.startTime + (ep1.duration : Int) * 1000⟩ := by
    rw [hstF]
    show List.find? _ (_ :: _) = _
    rw [List.find?_cons_of_pos]
    rw [Bool.and_eq_true, decide_eq_true_eq, decide_eq_true_eq]
    constructor
    · show saved.startTime ≤ saved.startTime + 90000
      omega
    · show saved.startTime + 90000 < saved.startTime + (ep1.duration : Int) * 1000
      omega
  have hwfF : WFState stF := ⟨hwf3.1, hwf3.2⟩
  cases hlast : stF.playlist.getLast? with
  | none =>
    exact absurd (List.getLast?_eq_none_iff.mp hlast) (by rw [hstF]; simp)
  | some lastIt =>
    by_cases hth : lastIt.endTime - (saved.startTime + 90000) < EXTEND_THRESHOLD_MS
    · obtain ⟨items2, st4, hb4, -⟩ := buildItems_total fuel2 stF
        (lastEnd stF.playlist (saved.startTime + 90000))
        (lastEnd stF.playlist (saved.startTime + 90000) + LOOKAHEAD_MS) hwfF
      obtain ⟨stE, hext⟩ : ∃ stE,
          extendPlaylist fuel2 (saved.startTime + 90000) stF = some stE := by
        simp only [extendPlaylist, hb4]
        exact ⟨_, rfl⟩
      have hgci : getCurrentItem fuel2 (saved.startTime + 90000) stF
          = some (some ⟨ep1, saved.startTime,
              saved.startTime + (ep1.duration : Int) * 1000⟩, stE) := by
        simp only [getCurrentItem, hfc, hlast]
        rw [if_pos hth, hext]
      have hpos := hposition fuel2 (saved.startTime + 90000) stF _ _ hgci
      have hval : (saved.startTime + 90000 -
          (⟨ep1, saved.startTime, saved.startTime + (ep1.duration : Int) * 1000⟩
            : PlaylistItem).startTime) / 1000 = (90 : Int) := by
        show (saved.startTime + 90000 - saved.startTime) / 1000 = (90 : Int)
        norm_num
      rw [hval] at hpos
      exact ⟨stF, _, hcpm, hgci, hpos, hmatch⟩
    · have hgci : getCurrentItem fuel2 (saved.startTime + 90000) stF
          = some (some ⟨ep1, saved.startTime,
              saved.startTime + (ep1.duration : Int) * 1000⟩, stF) := by
        simp only [getCurrentItem, hfc, hlast]
        rw [if_neg hth]
      have hpos := hposition fuel2 (saved.startTime + 90000) stF _ _ hgci
      have hval : (saved.startTime + 90000 -
          (⟨ep1, saved.startTime, saved.startTime + (ep1.duration : Int) * 1000⟩
            : PlaylistItem).startTime) / 1000 = (90 : Int) := by
        show (saved.startTime + 90000 - saved.startTime) / 1000 = (90 : Int)
        norm_num
      rw [hval] at hpos
      exact ⟨stF, stF, hcpm, hgci, hpos, hmatch⟩

def savedX : SavedEpisode := ⟨"X", 1, 2, "", 1000⟩

/-- Witness for C3: restoring `X S1E2` (120 s) persisted with start time
1000 ms and querying at 91000 ms yields that episode at position 90. -/
theorem C3_witness :
    ∃ st st',
      constructPM 10 [showX] (some savedX) (1000 + 90000) = some st
        ∧ getCurrentItem 5 (1000 + 90000) st
            = some (some ⟨epX2, 1000, 1000 + ((120 : Nat) : Int) * 1000⟩, st')
        ∧ getPosition 5 (1000 + 90000) st = some (90, st') := by
  have h := (C3_time_anchored [showX] savedX 0 showX 1 epX2 9 5
    (by decide) (by decide) (by decide)).1
  obtain ⟨st, st', h1, h2, h3, -⟩ := h
  exact ⟨st, st', h1, h2, h3⟩

/-! ## C4 — getCurrentItem null only on empty catalog -/

/-- A reachable state whose playlist ended ten hours ago: one 30 s show,
playlist = the single item `[0, 30000)`. -/
def cst4 : PMState := ⟨[showC], initIndices [showC] emptyMap, 0, [⟨epC1, 0, 30000⟩]⟩

/-- Counterexample to C4: at `now = 36 000 000` (10 h) the single
extension only reaches 2 h past the old window end (7 230 000 ms), so the
retry still finds nothing and `getCurrentItem` returns null even though
the catalog has a show with an episode. -/
theorem C4_counterexample :
    cst4.shows ≠ []
      ∧ (∀ sh ∈ cst4.shows, sh.episodes ≠ [])
      ∧ ((getCurrentItem 300 36000000 cst4).map fun p => p.1) = some none := by
  refine ⟨by decide, by decide, by decide⟩

/-- C4 (amended): with an empty catalog the result is null exactly when no
(possibly stale) playlist item covers `now` — a leftover window item
containing `now` is still returned; with a nonempty catalog (positive
durations, enough fuel) the retry after the single extension finds an item
containing `now` provided `now` is covered by the existing window, or the
playlist is empty, or `now` lies within 2 hours after the window end — but
not when the window has fallen further behind (the counterexample). -/
theorem C4_current_item (fuel : Nat) (now : Int) (st : PMState)
    (hwf : WFState st)
    (hdur : ∀ sh ∈ st.shows, ∀ ep ∈ sh.episodes, 0 < ep.duration)
    (hfuel : LOOKAHEAD_MS.toNat ≤ fuel) :
    (st.shows = [] →
        (findCurrent st.playlist now = none →
          ∃ st', getCurrentItem fuel now st = some (none, st'))
        ∧ (∀ it, findCurrent st.playlist now = some it →
            it.startTime ≤ now ∧ now < it.endTime
              ∧ ∃ st', getCurrentItem fuel now st = some (some it, st')))
      ∧ (st.shows ≠ [] →
          ((∃ it ∈ st.playlist, it.startTime ≤ now ∧ now < it.endTime)
            ∨ st.playlist = []
            ∨ (lastEnd st.playlist now ≤ now
                ∧ now < lastEnd st.playlist now + LOOKAHEAD_MS)) →
          ∃ it st', getCurrentItem fuel now st = some (some it, st')
            ∧ it.startTime ≤ now ∧ now < it.endTime) := by
  constructor
  · intro hsh
    have hbi : buildItems fuel st (lastEnd st.playlist now)
        (lastEnd st.playlist now + LOOKAHEAD_MS) = some ([], st) := by
      cases fuel with
      | zero => rfl
      | succ f =>
        rw [buildItems]
        split
        · simp only [getNextEpisode_of_empty st hsh]
        · rfl
    constructor
    · intro hfc
      obtain ⟨stE, hext, hplE⟩ : ∃ stE, extendPlaylist fuel now st = some stE
          ∧ stE.playlist = (st.playlist ++ []).filter
              (fun item => decide (now - HISTORY_KEEP_MS < item.endTime)) := by
        simp only [extendPlaylist, hbi]
        exact ⟨_, rfl, rfl⟩
      refine ⟨stE, ?_⟩
      simp only [getCurrentItem, hfc, hext]
      have hforall := List.find?_eq_none.mp (by rw [findCurrent] at hfc; exact hfc)
      have hnoneE : findCurrent stE.playlist now = none := by
        rw [findCurrent, List.find?_eq_none]
        intro x hx
        rw [hplE] at hx
        exact hforall x (by simpa using (List.mem_filter.mp hx).1)
      rw [hnoneE]
    · intro it hfc
      have hprop := findCurrent_prop _ _ _ hfc
      refine ⟨hprop.1, hprop.2, ?_⟩
      cases hlast : st.playlist.getLast? with
      | none => exact ⟨st, by simp only [getCurrentItem, hfc, hlast]⟩
      | some lastIt =>
        by_cases hth : lastIt.endTime - now < EXTEND_THRESHOLD_MS
        · obtain ⟨stE, hext⟩ : ∃ stE, extendPlaylist fuel now st = some stE := by
            simp only [extendPlaylist, hbi]
            exact ⟨_, rfl⟩
          refine ⟨stE, ?_⟩
          simp only [getCurrentItem, hfc, hlast]
          rw [if_pos hth, hext]
        · refine ⟨st, ?_⟩
          simp only [getCurrentItem, hfc, hlast]
          rw [if_neg hth]
  · intro hne hcov
    cases hfc : findCurrent st.playlist now with
    | some it =>
      have hprop := findCurrent_prop _ _ _ hfc
      cases hlast : st.playlist.getLast? with
      | none =>
        exact ⟨it, st, by simp only [getCurrentItem, hfc, hlast], hprop.1, hprop.2⟩
      | some lastIt =>
        by_cases hth : lastIt.endTime - now < EXTEND_THRESHOLD_MS
        · obtain ⟨items2, st4, hb4, -⟩ := buildItems_total fuel st
            (lastEnd st.playlist now) (lastEnd st.playlist now + LOOKAHEAD_MS) hwf
          obtain ⟨stE, hext⟩ : ∃ stE, extendPlaylist fuel now st = some stE := by
            simp only [extendPlaylist, hb4]
            exact ⟨_, rfl⟩
          refine ⟨it, stE, ?_, hprop.1, hprop.2⟩
          simp only [getCurrentItem, hfc, hlast]
          rw [if_pos hth, hext]
        · refine ⟨it, st, ?_, hprop.1, hprop.2⟩
          simp only [getCurrentItem, hfc, hlast]
          rw [if_neg hth]
    | none =>
      have hnone : ∀ x ∈ st.playlist,
          ¬(decide (x.startTime ≤ now) && decide (now < x.endTime)) = true := by
        rw [findCurrent] at hfc
        exact List.find?_eq_none.mp hfc
      have hL : (0 : Int) < LOOKAHEAD_MS := by norm_num [LOOKAHEAD_MS]
      have hbase : lastEnd st.playlist now ≤ now
          ∧ now < lastEnd st.playlist now + LOOKAHEAD_MS := by
        rcases hcov with ⟨it, hmem, h1, h2⟩ | h | h
        · exact absurd (show (decide (it.startTime ≤ now) && decide (now < it.endTime)) = true
            by simp [h1, h2]) (hnone it hmem)
        · rw [h]
          constructor
          · simp [lastEnd]
          · simp only [lastEnd, List.getLast?_nil]
            omega
        · exact h
      obtain ⟨items2, st4, hb4, -⟩ := buildItems_total fuel st
        (lastEnd st.playlist now) (lastEnd st.playlist now + LOOKAHEAD_MS) hwf
      have hreach := buildItems_reaches fuel st _ _ hwf hne hdur
        (by rw [add_sub_cancel_left]; exact hfuel) items2 st4 hb4
      obtain ⟨hchain, -, -, -, -⟩ := buildItems_spec fuel st _ _ items2 st4 hb4
      obtain ⟨itc, hmemc, hc1, hc2⟩ :=
        chainedFrom_covers _ items2 now hchain hbase.1 (by omega)
      obtain ⟨stE, hext, hplE⟩ : ∃ stE, extendPlaylist fuel now st = some stE
          ∧ stE.playlist = (st.playlist ++ items2).filter
              (fun item => decide (now - HISTORY_KEEP_MS < item.endTime)) := by
        simp only [extendPlaylist, hb4]
        exact ⟨_, rfl, rfl⟩
      have hmemF : itc ∈ stE.playlist := by
        rw [hplE]
        refine List.mem_filter.mpr ⟨List.mem_append_right _ hmemc, ?_⟩
        simp only [decide_eq_true_eq]
        have hH : (0 : Int) < HISTORY_KEEP_MS := by norm_num [HISTORY_KEEP_MS]
        omega
      obtain ⟨itF, hfcE, hp1, hp2⟩ := findCurrent_isSome stE.playlist now itc hmemF hc1 hc2
      refine ⟨itF, stE, ?_, hp1, hp2⟩
      simp only [getCurrentItem, hfc, hext]
      rw [hfcE]

/-- Witness for C4 (amended): the fresh scenario state with empty playlist
always yields a current item at `now = 0`. -/
theorem C4_witness :
    ∃ it st', getCurrentItem 7200000 0 pmScen0 = some (some it, st')
      ∧ it.startTime ≤ 0 ∧ 0 < it.endTime := by
  exact (C4_current_item 7200000 0 pmScen0 ⟨Or.inr (by decide), by decide⟩
    (by decide) (by decide)).2 (by decide) (Or.inr (Or.inl (by decide)))

end NekatzTV
